import Mathlib

/-!
Shallow embedding of `tm-backup`'s `src/sshuri.rs`.

Rust strings are modelled as `List Char`; `str::find(c)` becomes `findChar`,
and slicing `s[..n]` / `s[n+1..]` become `List.take n` / `List.drop (n+1)`.

`std::path::PathBuf` (Unix flavour) is modelled as a wrapper around the raw
character list, with `PathBuf::push`/`join` semantics (an absolute argument
replaces the path; otherwise a `/` separator is inserted when needed) and
the component-wise equality used by `PathBuf`'s `PartialEq` (components
collapse repeated separators, drop interior `.` entries and trailing
separators, keep a leading `.` and a root).

`SSHUri::from` has return type `Result<Self, String>` in the source but the
`Err` variant is never built: the missing-`:` case runs `panic!`.  The
embedding makes all three outcomes explicit in `FromResult`.
-/

set_option autoImplicit false

/-- Index of the first occurrence of `c`, as `str::find` the byte/char index. -/
def findChar (c : Char) : List Char → Option Nat
  | [] => none
  | x :: xs => if x = c then some 0 else (findChar c xs).map (· + 1)

/-- One component of a Unix path, as in `std::path::Component`. -/
inductive Component where
  | rootDir
  | curDir
  | parentDir
  | normal (s : List Char)
deriving DecidableEq, BEq

/-- Split a raw path string at every `/` (empty chunks kept). -/
def splitSep : List Char → List (List Char)
  | [] => [[]]
  | c :: rest =>
      if c = '/' then [] :: splitSep rest
      else
        match splitSep rest with
        | [] => [[c]]
        | h :: t => (c :: h) :: t

/-- Classify one chunk: empty and `.` chunks disappear, `..` is `ParentDir`. -/
def compOf (x : List Char) : Option Component :=
  if x = [] then none
  else if x = ['.'] then none
  else if x = ['.', '.'] then some .parentDir
  else some (.normal x)

/-- Whether the raw path begins with the separator (Unix `has_root`). -/
def hasRoot : List Char → Bool
  | c :: _ => decide (c = '/')
  | [] => false

/-- Whether a leading `.` component is kept (`include_cur_dir` in std). -/
def includeCurDir (s : List Char) : Bool :=
  !hasRoot s && (decide (s = ['.']) || decide (s.take 2 = ['.', '/']))

/-- The component sequence of a raw path, as `Path::components` on Unix. -/
def components (s : List Char) : List Component :=
  (if hasRoot s then [Component.rootDir] else [])
    ++ (if includeCurDir s then [Component.curDir] else [])
    ++ (splitSep s).filterMap compOf

/-- `std::path::PathBuf`: owns its raw character data. -/
structure PathBuf where
  inner : List Char
deriving DecidableEq

/-- Unix `Path::is_absolute`: begins with the separator. -/
def isAbsolute (s : List Char) : Bool := hasRoot s

/-- `PathBuf::push` inserts a separator iff the buffer is non-empty and does
not already end with one. -/
def needSep (p : PathBuf) : Bool :=
  match p.inner.getLast? with
  | some c => decide (c ≠ '/')
  | none => false

/-- `Path::join` (= clone + `push`): an absolute argument replaces the whole
path, otherwise the argument is appended after a separator when needed. -/
def PathBuf.join (p : PathBuf) (s : List Char) : PathBuf :=
  if isAbsolute s then ⟨s⟩
  else if needSep p then ⟨p.inner ++ '/' :: s⟩
  else ⟨p.inner ++ s⟩

/-- `PathBuf`'s `PartialEq`: component-wise comparison. -/
def PathBuf.beq (p q : PathBuf) : Bool :=
  decide (components p.inner = components q.inner)

/-- The `SSHUri` struct of `sshuri.rs`, all five fields. -/
structure SSHUri where
  original : List Char
  user : Option (List Char)
  uri : List Char
  host : List Char
  path : PathBuf
deriving DecidableEq

/-- The derived `PartialEq` on `SSHUri`: every field is compared, `path`
with `PathBuf`'s component-wise equality. -/
def sshuriEq (u v : SSHUri) : Bool :=
  decide (u.original = v.original) && decide (u.user = v.user)
    && decide (u.uri = v.uri) && decide (u.host = v.host)
    && PathBuf.beq u.path v.path

/-- Possible outcomes of `SSHUri::from`: the two `Result` variants plus the
process abort that `panic!` performs. -/
inductive FromResult where
  | ok (u : SSHUri)
  | err (e : List Char)
  | panic (msg : List Char)
deriving DecidableEq

def FromResult.isErr : FromResult → Bool
  | .err _ => true
  | _ => false

def FromResult.isOk : FromResult → Bool
  | .ok _ => true
  | _ => false

/-- The `format!("Not a valid SSH URI {}", src)` message. -/
def panicMsg (src : List Char) : List Char :=
  ("Not a valid SSH URI ").data ++ src

/-- The `user` computed by the first `match` in `SSHUri::from`. -/
def userOf (src : List Char) : Option (List Char) :=
  match findChar '@' src with
  | some n => some (src.take n)
  | none => none

/-- The `uri` (remainder) computed by the first `match` in `SSHUri::from`. -/
def remainderAfterAt (src : List Char) : List Char :=
  match findChar '@' src with
  | some n => src.drop (n + 1)
  | none => src

/-- `SSHUri::from`. -/
def SSHUri.«from» (src : List Char) : FromResult :=
  let user := userOf src
  let uri := remainderAfterAt src
  match findChar ':' uri with
  | some n =>
      .ok { original := src, user := user, uri := uri,
            host := uri.take n, path := ⟨uri.drop (n + 1)⟩ }
  | none => .panic (panicMsg src)

/-- `SSHUri::join`: fold `Path::join` over the parts, copy every other field. -/
def SSHUri.join (u : SSHUri) (parts : List (List Char)) : SSHUri :=
  { original := u.original, user := u.user, uri := u.uri, host := u.host,
    path := parts.foldl PathBuf.join u.path }

/-! ### Helper lemmas -/

theorem from_ok_inv (src : List Char) (u : SSHUri)
    (h : SSHUri.«from» src = .ok u) :
    ∃ n, findChar ':' (remainderAfterAt src) = some n ∧
      u = { original := src, user := userOf src, uri := remainderAfterAt src,
            host := (remainderAfterAt src).take n,
            path := ⟨(remainderAfterAt src).drop (n + 1)⟩ } := by
  simp only [SSHUri.«from»] at h
  split at h
  case h_1 n heq =>
    injection h with h
    exact ⟨n, heq, h.symm⟩
  case h_2 => exact FromResult.noConfusion h

theorem sshuriEq_refl (u : SSHUri) : sshuriEq u u = true := by
  simp [sshuriEq, PathBuf.beq]

theorem join_join (u : SSHUri) (s1 s2 : List (List Char)) :
    (u.join s1).join s2 = u.join (s1 ++ s2) := by
  simp [SSHUri.join, List.foldl_append]

/-- An example value: the result of parsing `user@host:/path/`. -/
def uEx : SSHUri :=
  ⟨"user@host:/path/".data, some "user".data, "host:/path/".data,
    "host".data, ⟨"/path/".data⟩⟩

/-! ### Claim theorems -/

/-- C1: at the failing input `nodelimiter` (no `:` in the remainder), the
code does not return a recoverable error: it panics, aborting the process
with the message `Not a valid SSH URI nodelimiter`. -/
theorem c1_panic_on_missing_colon :
    SSHUri.«from» "nodelimiter".data
      = FromResult.panic ("Not a valid SSH URI nodelimiter").data := by
  decide

/-- C2 counterexample: parsing `:path` succeeds (returns `ok`) and the
resulting `host` field is the empty string, refuting the claim that `host`
is non-empty for every successfully parsed input. -/
theorem c2_counterexample :
    SSHUri.«from» ":path".data
        = FromResult.ok ⟨":path".data, none, ":path".data, [], ⟨"path".data⟩⟩
      ∧ (SSHUri.mk ":path".data none ":path".data [] ⟨"path".data⟩).host
        = [] := by
  exact ⟨by decide, rfl⟩

/-- C2 (amended): for every successful parse, `host` is exactly the prefix
of the remainder (the part after the first `@`, or the whole input) before
its first `:`; it may be empty. -/
theorem c2_host_is_prefix_before_colon (src : List Char) (u : SSHUri)
    (n : Nat) (hok : SSHUri.«from» src = .ok u)
    (hfind : findChar ':' (remainderAfterAt src) = some n) :
    u.host = (remainderAfterAt src).take n := by
  obtain ⟨m, hm, hu⟩ := from_ok_inv src u hok
  rw [hm] at hfind
  injection hfind with hfind
  subst hfind
  subst hu
  rfl

/-- C2 witness: the amended theorem applied to `user@host:/path`, where the
remainder `host:/path` has its first `:` at index 4 and `host` is the
4-character prefix. -/
theorem c2_witness :
    (SSHUri.mk "user@host:/path".data (some "user".data) "host:/path".data
        "host".data ⟨"/path".data⟩).host
      = (remainderAfterAt "user@host:/path".data).take 4 :=
  c2_host_is_prefix_before_colon "user@host:/path".data _ 4
    (by decide) (by decide)

/-- C4 counterexample: two `SSHUri` values that agree on `original`, `user`,
`host` and `path` but differ in the fifth stored field `uri` are not equal
under the derived equality, refuting the claim that only the four named
fields participate. -/
theorem c4_counterexample :
    (SSHUri.mk "o".data none "u1".data "h".data ⟨"p".data⟩).original
        = (SSHUri.mk "o".data none "u2".data "h".data ⟨"p".data⟩).original
      ∧ (SSHUri.mk "o".data none "u1".data "h".data ⟨"p".data⟩).user
        = (SSHUri.mk "o".data none "u2".data "h".data ⟨"p".data⟩).user
      ∧ (SSHUri.mk "o".data none "u1".data "h".data ⟨"p".data⟩).host
        = (SSHUri.mk "o".data none "u2".data "h".data ⟨"p".data⟩).host
      ∧ (SSHUri.mk "o".data none "u1".data "h".data ⟨"p".data⟩).path
        = (SSHUri.mk "o".data none "u2".data "h".data ⟨"p".data⟩).path
      ∧ sshuriEq (SSHUri.mk "o".data none "u1".data "h".data ⟨"p".data⟩)
          (SSHUri.mk "o".data none "u2".data "h".data ⟨"p".data⟩) = false := by
  refine ⟨rfl, rfl, rfl, rfl, by decide⟩

/-- C4 (amended): the derived equality on `SSHUri` holds iff all five
fields agree — `original`, `user`, `uri`, `host` literally, and `path` by
path-component comparison. -/
theorem c4_eq_iff_five_fields (u v : SSHUri) :
    sshuriEq u v = true ↔
      u.original = v.original ∧ u.user = v.user ∧ u.uri = v.uri
        ∧ u.host = v.host
        ∧ components u.path.inner = components v.path.inner := by
  simp [sshuriEq, PathBuf.beq, and_assoc]

/-- C4 witness: the amended equivalence instantiated at a concrete pair. -/
theorem c4_witness :
    sshuriEq (SSHUri.mk "o".data none "u1".data "h".data ⟨"p".data⟩)
      (SSHUri.mk "o".data none "u1".data "h".data ⟨"p".data⟩) = true :=
  (c4_eq_iff_five_fields _ _).mpr ⟨rfl, rfl, rfl, rfl, rfl⟩

/-- C5: for every successfully parsed URI, joining `s1` then `s2` equals
joining `s1 ++ s2` in one step, under the program's equality. -/
theorem c5_join_assoc (src : List Char) (u : SSHUri)
    (s1 s2 : List (List Char)) (_hok : SSHUri.«from» src = .ok u) :
    sshuriEq ((u.join s1).join s2) (u.join (s1 ++ s2)) = true := by
  rw [join_join]
  exact sshuriEq_refl _

/-- C5 witness: associativity at the parse of `user@host:/path/` with the
segment lists `[a]` and `[b]`. -/
theorem c5_witness :
    sshuriEq ((uEx.join ["a".data]).join ["b".data])
      (uEx.join (["a".data] ++ ["b".data])) = true :=
  c5_join_assoc "user@host:/path/".data uEx ["a".data] ["b".data] (by decide)

/-- C6: for every successfully parsed URI, joining the empty segment list
returns a value equal to the base. -/
theorem c6_join_nil (src : List Char) (u : SSHUri)
    (_hok : SSHUri.«from» src = .ok u) :
    sshuriEq (u.join []) u = true :=
  sshuriEq_refl u

/-- C6 witness: the identity join at the parse of `user@host:/path/`. -/
theorem c6_witness : sshuriEq (uEx.join []) uEx = true :=
  c6_join_nil "user@host:/path/".data uEx (by decide)

/-- C7: parsing `user@host:/path/` succeeds with `user = Some "user"`,
`host = "host"` and a stored path whose effective value equals `/path`
(`PathBuf` equality ignores the trailing separator), and joining a child
under `/path/` equals joining it under `/path`. -/
theorem c7_trailing_separator :
    SSHUri.«from» "user@host:/path/".data = FromResult.ok uEx
      ∧ uEx.user = some "user".data
      ∧ uEx.host = "host".data
      ∧ PathBuf.beq uEx.path ⟨"/path".data⟩ = true
      ∧ PathBuf.beq (PathBuf.join ⟨"/path/".data⟩ "child".data)
          (PathBuf.join ⟨"/path".data⟩ "child".data) = true := by
  refine ⟨by decide, rfl, rfl, by decide, by decide⟩

/-- C8: `join` copies `original`, `user`, `host` and the retained `uri`
field unchanged from the base; only `path` is recomputed. -/
theorem c8_join_frame (u : SSHUri) (parts : List (List Char)) :
    (u.join parts).original = u.original
      ∧ (u.join parts).user = u.user
      ∧ (u.join parts).host = u.host
      ∧ (u.join parts).uri = u.uri :=
  ⟨rfl, rfl, rfl, rfl⟩

/-- C9: a successful parse stores the exact input in `original`, and `join`
preserves it, so it survives any join. -/
theorem c9_original_roundtrip (src : List Char) (u : SSHUri)
    (parts : List (List Char)) (hok : SSHUri.«from» src = .ok u) :
    u.original = src ∧ (u.join parts).original = src := by
  obtain ⟨n, _, hu⟩ := from_ok_inv src u hok
  subst hu
  exact ⟨rfl, rfl⟩

/-- C9 witness: the round-trip at `user@host:/path/` with one join. -/
theorem c9_witness :
    uEx.original = "user@host:/path/".data
      ∧ (uEx.join ["a".data]).original = "user@host:/path/".data :=
  c9_original_roundtrip "user@host:/path/".data uEx ["a".data] (by decide)

/-- C10: `SSHUri::from` never returns the `Err` variant of its declared
`Result`; when the remainder has no `:` it panics with the formatted
message instead, so the error branch is unreachable by callers. -/
theorem c10_err_unreachable (src : List Char) :
    (SSHUri.«from» src).isErr = false
      ∧ (findChar ':' (remainderAfterAt src) = none →
          SSHUri.«from» src = .panic (panicMsg src)) := by
  constructor
  · simp only [SSHUri.«from»]
    split <;> rfl
  · intro hnone
    simp only [SSHUri.«from», hnone]

/-- C10 witness: at `nodelimiter` the parse panics and is not an `Err`. -/
theorem c10_witness :
    (SSHUri.«from» "nodelimiter".data).isErr = false
      ∧ SSHUri.«from» "nodelimiter".data
        = FromResult.panic (panicMsg "nodelimiter".data) :=
  ⟨(c10_err_unreachable "nodelimiter".data).1,
    (c10_err_unreachable "nodelimiter".data).2 (by decide)⟩

/-! ### Lemmas about path components for C3 -/

theorem splitSep_ne_nil (s : List Char) : splitSep s ≠ [] := by
  induction s with
  | nil => simp [splitSep]
  | cons c rest ih =>
    simp only [splitSep]
    split
    · simp
    · cases hsr : splitSep rest <;> simp [hsr]

theorem splitSep_sep_append (xs ys : List Char) :
    splitSep (xs ++ '/' :: ys) = splitSep xs ++ splitSep ys := by
  induction xs with
  | nil => simp [splitSep]
  | cons c xs ih =>
    by_cases hc : c = '/'
    · subst hc
      simp [splitSep, ih]
    · cases hsx : splitSep xs with
      | nil => exact absurd hsx (splitSep_ne_nil xs)
      | cons a t =>
        simp only [List.cons_append, splitSep, if_neg hc, ih, hsx,
          List.append_eq]

theorem splitSep_no_sep (s : List Char) (h : '/' ∉ s) : splitSep s = [s] := by
  induction s with
  | nil => rfl
  | cons c rest ih =>
    have hc : ¬ c = '/' := fun hh => h (by rw [hh]; exact List.mem_cons_self _ _)
    have hr : '/' ∉ rest := fun hh => h (List.mem_cons_of_mem c hh)
    simp only [splitSep, if_neg hc, ih hr]

theorem hasRoot_cons_append (a : Char) (r x : List Char) :
    hasRoot ((a :: r) ++ x) = hasRoot (a :: r) := rfl

theorem includeCurDir_sep_indep (q t₁ t₂ : List Char) :
    includeCurDir (q ++ '/' :: t₁) = includeCurDir (q ++ '/' :: t₂) := by
  match q with
  | [] => rfl
  | [a] => simp [includeCurDir, hasRoot, List.take]
  | a :: b :: r => simp [includeCurDir, hasRoot, List.take]

theorem includeCurDir_append_sep (a : Char) (r t : List Char) :
    includeCurDir ((a :: r) ++ '/' :: t) = includeCurDir (a :: r) := by
  match r with
  | [] => simp [includeCurDir, hasRoot, List.take]
  | b :: r' => simp [includeCurDir, hasRoot, List.take]

theorem compOf_nil : compOf [] = none := rfl

theorem compOf_plain (s : List Char) (h1 : s ≠ []) (h3 : s ≠ ['.'])
    (h4 : s ≠ ['.', '.']) : compOf s = some (.normal s) := by
  simp [compOf, h1, h3, h4]

theorem components_join_seg (p : PathBuf) (s : List Char)
    (h1 : s ≠ []) (h2 : '/' ∉ s) (h3 : s ≠ ['.']) (h4 : s ≠ ['.', '.']) :
    components (PathBuf.join p s).inner
      = components p.inner ++ [Component.normal s] := by
  have habs : isAbsolute s = false := by
    cases s with
    | nil => rfl
    | cons c cs =>
      simp only [isAbsolute, hasRoot, decide_eq_false_iff_not]
      intro hc
      exact h2 (by rw [hc]; exact List.mem_cons_self _ _)
  have hcomp : compOf s = some (.normal s) := compOf_plain s h1 h3 h4
  have hsplit_s : splitSep s = [s] := splitSep_no_sep s h2
  rw [PathBuf.join]
  rw [if_neg (by rw [habs]; exact Bool.false_ne_true)]
  by_cases hns : needSep p = true
  · rw [if_pos hns]
    have hne : p.inner ≠ [] := by
      intro he
      rw [needSep, he] at hns
      exact Bool.false_ne_true hns
    obtain ⟨a, r, hin⟩ : ∃ a r, p.inner = a :: r := by
      cases hpi : p.inner with
      | nil => exact absurd hpi hne
      | cons a r => exact ⟨a, r, rfl⟩
    rw [hin]
    show components ((a :: r) ++ '/' :: s) = _
    rw [components, components, hasRoot_cons_append, includeCurDir_append_sep,
      splitSep_sep_append, hsplit_s, List.filterMap_append]
    simp [hcomp]
  · rw [if_neg hns]
    rcases hlast : p.inner.getLast? with _ | c
    · have hnil : p.inner = [] := by
        cases hpi : p.inner with
        | nil => rfl
        | cons a r =>
          rw [hpi] at hlast
          simp at hlast
      rw [hnil]
      show components s = components ([] : List Char) ++ [Component.normal s]
      have hcur : includeCurDir s = false := by
        rw [includeCurDir, isAbsolute] at *
        rw [habs]
        simp only [Bool.not_false, Bool.true_and, Bool.or_eq_false_iff,
          decide_eq_false_iff_not]
        refine ⟨h3, fun ht => h2 ?_⟩
        have : '/' ∈ s.take 2 := by rw [ht]; simp
        exact List.take_subset 2 s this
      rw [components, components, hcur]
      rw [isAbsolute] at habs
      rw [habs, hsplit_s]
      simp [hcomp, includeCurDir, splitSep, compOf_nil, hasRoot,
        List.filterMap_cons]
    · have hc : c = '/' := by
        rw [needSep, hlast] at hns
        simp at hns
        exact hns
      subst hc
      have hq : p.inner.dropLast ++ ['/'] = p.inner :=
        List.dropLast_append_getLast? '/' hlast
      rw [← hq]
      show components ((p.inner.dropLast ++ ['/']) ++ s) = _
      rw [List.append_assoc, List.singleton_append]
      have e1 : p.inner.dropLast ++ ['/'] = p.inner.dropLast ++ '/' :: [] := rfl
      rw [e1]
      rw [components, components,
        includeCurDir_sep_indep p.inner.dropLast s ([] : List Char),
        splitSep_sep_append, splitSep_sep_append, hsplit_s]
      have e2 : hasRoot (p.inner.dropLast ++ '/' :: s)
          = hasRoot (p.inner.dropLast ++ '/' :: ([] : List Char)) := by
        cases p.inner.dropLast <;> rfl
      rw [e2]
      simp [hcomp, splitSep, compOf_nil, List.filterMap_cons]

/-- C3 counterexample: joining the absolute segment `/abs` onto the base
parsed from `host:/a` does not append it under `/a`; `PathBuf::join`
replaces the whole path, so the base's components are not even a prefix of
the result's components. -/
theorem c3_counterexample :
    ((SSHUri.mk "host:/a".data none "host:/a".data "host".data
        ⟨"/a".data⟩).join ["/abs".data]).path = ⟨"/abs".data⟩
      ∧ ¬ (components (PathBuf.mk "/a".data).inner
            <+: components (((SSHUri.mk "host:/a".data none "host:/a".data
              "host".data ⟨"/a".data⟩).join ["/abs".data]).path.inner)) := by
  exact ⟨by decide, by decide⟩

/-- C3 (amended): `join` folds `Path::join` over the segments; a plain
relative segment (non-empty, no separator, not `.` or `..`) becomes a new
trailing component of the accumulated path, but an absolute segment
replaces the accumulated path entirely instead of being appended. -/
theorem c3_join_segment_semantics (u : SSHUri) (parts : List (List Char))
    (s : List Char) :
    (u.join (parts ++ [s])).path = PathBuf.join (u.join parts).path s
      ∧ (isAbsolute s = true → PathBuf.join (u.join parts).path s = ⟨s⟩)
      ∧ (s ≠ [] → '/' ∉ s → s ≠ ['.'] → s ≠ ['.', '.'] →
          components (PathBuf.join (u.join parts).path s).inner
            = components (u.join parts).path.inner
              ++ [Component.normal s]) := by
  refine ⟨?_, ?_, ?_⟩
  · simp [SSHUri.join, List.foldl_append]
  · intro habs
    simp [PathBuf.join, habs]
  · intro h1 h2 h3 h4
    exact components_join_seg _ s h1 h2 h3 h4

/-- C3 witness: at the parse of `user@host:/path/`, the relative segment
`child` is appended as a trailing component while the absolute segment
`/abs` replaces the path. -/
theorem c3_witness :
    (uEx.join ([] ++ ["child".data])).path
        = PathBuf.join (uEx.join []).path "child".data
      ∧ PathBuf.join (uEx.join []).path "/abs".data = ⟨"/abs".data⟩
      ∧ components (PathBuf.join (uEx.join []).path "child".data).inner
        = components (uEx.join []).path.inner
          ++ [Component.normal "child".data] :=
  ⟨(c3_join_segment_semantics uEx [] "child".data).1,
    (c3_join_segment_semantics uEx [] "/abs".data).2.1 (by decide),
    (c3_join_segment_semantics uEx [] "child".data).2.2
      (by decide) (by decide) (by decide) (by decide)⟩
